import Mathlib

/-
Verification development for the `lbg_tools` completeness estimator
(`src/lbg_tools/completeness.py`).

Modelling conventions:
  * numpy float64 arrays are modelled by `List ℚ` (exact rational arithmetic);
    a 2-D table (pandas DataFrame of floats) is a rectangular `List (List ℚ)`
    whose outer lists are the redshift rows and whose inner positions are the
    magnitude-offset columns.
  * `np.isclose(a, b)` (default tolerances, used by the enforcement passes) is
    `iscloseQ` with `atol = 1e-8`, `rtol = 1e-5`.
  * `ndarray.max()` / `.min()` of a nonempty array are `maxOf` / `minOf`.
  * Python exceptions are `Except PyError`.
-/

/- `np.isclose` default absolute tolerance (1e-8). -/
def atolQ : ℚ := 1/10^8

/- `np.isclose` default relative tolerance (1e-5). -/
def rtolQ : ℚ := 1/10^5

/- `np.abs` on a rational. -/
def absQ (x : ℚ) : ℚ := if x < 0 then -x else x

/- `np.isclose(a, b)`: `|a - b| <= atol + rtol * |b|`. -/
def iscloseQ (a b : ℚ) : Bool := absQ (a - b) ≤ atolQ + rtolQ * absQ b

/- `array.max()` for a nonempty array (`0` as junk value on `[]`, where numpy
raises). -/
def maxOf : List ℚ → ℚ
  | [] => 0
  | x :: xs => if xs.isEmpty then x else max x (maxOf xs)

/- `array.min()` for a nonempty array (`0` as junk value on `[]`). -/
def minOf : List ℚ → ℚ
  | [] => 0
  | x :: xs => if xs.isEmpty then x else min x (minOf xs)

/-
`Completeness._force_unimodality`, first loop, forward direction:

    front_monotonic[i] = front_monotonic[: i + 1].max()

reads the partially updated array: cells `0 .. i-1` already hold the running
maxima (a non-decreasing prefix whose last entry is the previous running
maximum) and cell `i` still holds the original value, so the assigned value is
`max (previous running maximum) (original value)`.  `frontAux c xs` carries the
previous running maximum `c` through the loop.
-/
def frontAux (c : ℚ) : List ℚ → List ℚ
  | [] => []
  | x :: xs => max c x :: frontAux (max c x) xs

/- Forward running maximum (`front_monotonic` after the loop). -/
def frontMono : List ℚ → List ℚ
  | [] => []
  | x :: xs => x :: frontAux x xs

/-
`Completeness._force_unimodality`, first loop, backward direction:

    back_monotonic[i] = back_monotonic[i:].max()

at iteration `i` the slice `[i:]` still holds original values, so the assigned
value is the suffix maximum of the original array.
-/
def backMono : List ℚ → List ℚ
  | [] => []
  | x :: xs =>
    match backMono xs with
    | [] => [x]
    | y :: ys => max x y :: y :: ys

/-
`Completeness._force_unimodality`:

    new_array = front_monotonic.copy()
    mask = np.isclose(new_array, new_array.max())
    new_array[mask] = back_monotonic[mask]

`new_array.max()` is the maximum of the forward running maxima.
-/
def forceUnimodality (a : List ℚ) : List ℚ :=
  List.zipWith
    (fun f b => if iscloseQ f (maxOf (frontMono a)) then b else f)
    (frontMono a) (backMono a)

/-
`Completeness._force_mag_monotonicity`, inner loop over the columns of one row:

    for j in range(table.shape[1]):
        if np.isclose(table.iloc[i, j], 0):
            table.iloc[i, :] = 0
            break
        table.iloc[i, j] = table.iloc[i, j:].max()

When position `j` is reached, cells `j, j+1, ...` still hold original values
(only cells `< j` were overwritten), so the near-zero test sees the original
value and the assigned value is the suffix maximum of the original row.
`magScan` returns `none` when a near-zero cell is hit, because the code then
assigns `0` to the ENTIRE row (`iloc[i, :]`), wiping the already-written
prefix, and breaks.
-/
def magScan : List ℚ → Option (List ℚ)
  | [] => some []
  | x :: xs =>
    if iscloseQ x 0 then none
    else (magScan xs).map (fun ys => maxOf (x :: xs) :: ys)

/- One row of `Completeness._force_mag_monotonicity`: either the scanned row,
or an all-zero row when a near-zero cell was hit. -/
def forceMagRow (r : List ℚ) : List ℚ :=
  (magScan r).getD (List.replicate r.length 0)

/- `Completeness._force_mag_monotonicity`: the outer loop treats each row
independently. -/
def forceMagMonotonicity (t : List (List ℚ)) : List (List ℚ) :=
  t.map forceMagRow

/- `table.shape[1]`: a DataFrame is rectangular, so the number of columns is
the length of the first row. -/
def ncols (t : List (List ℚ)) : ℕ := (t.getD 0 []).length

/- Column `j` of the table (`table.iloc[:, j]`). -/
def getCol (t : List (List ℚ)) (j : ℕ) : List ℚ :=
  t.map (fun r => r.getD j 0)

/- Entry `(i, j)` of the table (`table.iloc[i, j]`). -/
def ent (t : List (List ℚ)) (i j : ℕ) : ℚ :=
  (t.getD i []).getD j 0

/-
`Completeness._force_z_unimodality`:

    for j in range(table.shape[1]):
        table.iloc[:, j] = self._force_unimodality(table.iloc[:, j].to_numpy())

Each column is replaced by `forceUnimodality` of the original column (writing
column `j` does not affect any other column), so entry `(i, j)` of the result
is entry `i` of the enforced column `j`.
-/
def forceZUnimodality (t : List (List ℚ)) : List (List ℚ) :=
  (List.range t.length).map (fun i =>
    (List.range (ncols t)).map (fun j =>
      (forceUnimodality (getCol t j)).getD i 0))

-- ---------------------------------------------------------------------------
-- Shape predicates
-- ---------------------------------------------------------------------------

/- Entries at positions `0 .. p` are non-decreasing. -/
def NonDecrUpTo (l : List ℚ) (p : ℕ) : Prop :=
  ∀ k < p, l.getD k 0 ≤ l.getD (k + 1) 0

/- Entries at positions `p .. length - 1` are non-increasing. -/
def NonIncrFrom (l : List ℚ) (p : ℕ) : Prop :=
  ∀ k < l.length, p ≤ k → k + 1 < l.length → l.getD (k + 1) 0 ≤ l.getD k 0

/- Unimodal: non-decreasing up to some peak position, non-increasing after it
(monotone arrays are the edge cases with the peak at an end). -/
def Unimodal (l : List ℚ) : Prop :=
  ∃ p, p < l.length ∧ NonDecrUpTo l p ∧ NonIncrFrom l p

/- Strictly ascending grid, as `RegularGridInterpolator` requires of its axis
arrays. -/
def StrictSorted (l : List ℚ) : Prop := List.Chain' (· < ·) l

-- ---------------------------------------------------------------------------
-- RegularGridInterpolator (linear, bounds_error=False, fill_value=None)
-- ---------------------------------------------------------------------------

/- `np.searchsorted(grid, x)` (side "left") on a sorted grid: the number of
grid points strictly below `x`. -/
def countLt : List ℚ → ℚ → ℕ
  | [], _ => 0
  | y :: ys, x => (if y < x then 1 else 0) + countLt ys x

/- Cell lookup of `RegularGridInterpolator._find_indices`:

    i = np.searchsorted(grid, x) - 1
    i[i < 0] = 0
    i[i > grid.size - 2] = grid.size - 2

(truncated ℕ subtraction coincides with the clamp at 0). -/
def searchIdx (g : List ℚ) (x : ℚ) : ℕ :=
  min (countLt g x - 1) (g.length - 2)

/- Bilinear interpolation on the cell found by `searchIdx`; the local
coordinates are NOT clamped to [0, 1], which is exactly scipy linear
extrapolation with `fill_value=None`. -/
def interp2d (zs cols : List ℚ) (V : List (List ℚ)) (z dm : ℚ) : ℚ :=
  let i := searchIdx zs z
  let j := searchIdx cols dm
  let tz := (z - zs.getD i 0) / (zs.getD (i + 1) 0 - zs.getD i 0)
  let tm := (dm - cols.getD j 0) / (cols.getD (j + 1) 0 - cols.getD j 0)
  (1 - tz) * (1 - tm) * ent V i j + (1 - tz) * tm * ent V i (j + 1)
    + tz * (1 - tm) * ent V (i + 1) j + tz * tm * ent V (i + 1) (j + 1)

-- ---------------------------------------------------------------------------
-- The Completeness estimator
-- ---------------------------------------------------------------------------

/- Python exceptions raised by the modelled code. -/
inductive PyError where
  | valueError (msg : String)
  | attributeError (msg : String)

/- The estimator state after `Completeness.__init__`: constructor parameters,
the axis labels of the loaded table (`table.index`, `table.columns`) and the
shape-enforced value grid (`self.table.values`, which is also what the
interpolator owns). -/
structure Completeness where
  _band : String
  _m5_det : ℚ
  zs : List ℚ
  cols : List ℚ
  table : List (List ℚ)

/- Property getter `Completeness.band`. -/
def Completeness.band (c : Completeness) : String := c._band

/- Property getter `Completeness.m5_det`. -/
def Completeness.m5_det (c : Completeness) : ℚ := c._m5_det

/- `Completeness.__init__` after the table file was parsed into axis labels
`zs`, `cols` and raw values `raw`:

    self.table = self._force_z_unimodality(self._force_mag_monotonicity(self.table0))
-/
def mkCompleteness (band : String) (m5 : ℚ) (zs cols : List ℚ)
    (raw : List (List ℚ)) : Completeness :=
  ⟨band, m5, zs, cols, forceZUnimodality (forceMagMonotonicity raw)⟩

/- The class declares `band` with `@property` and never a `@band.setter`. -/
def bandHasSetter : Bool := false

/- The class declares `m5_det` with `@property` and never a setter. -/
def m5detHasSetter : Bool := false

/- Message of the `AttributeError` Python raises on assignment to a property
with no setter. -/
def noSetterMsg (name : String) : String :=
  "property \x27" ++ name ++ "\x27 of \x27Completeness\x27 object has no setter"

/- Attribute assignment `completeness.band = v`: a property with no setter
raises `AttributeError`. -/
def setBand (c : Completeness) (v : String) : Except PyError Completeness :=
  if bandHasSetter then .ok { c with _band := v }
  else .error (.attributeError (noSetterMsg "band"))

/- Attribute assignment `completeness.m5_det = v`. -/
def setM5Det (c : Completeness) (v : ℚ) : Except PyError Completeness :=
  if m5detHasSetter then .ok { c with _m5_det := v }
  else .error (.attributeError (noSetterMsg "m5_det"))

-- ---------------------------------------------------------------------------
-- The query path (Completeness.__call__)
-- ---------------------------------------------------------------------------

/- Steps of `__call__` after the interpolation:

    completeness = np.atleast_2d(completeness)
    for i in range(completeness.shape[0]):
        completeness[i] = self._force_unimodality(completeness[i])
    for j in range(completeness.shape[1]):
        completeness[:, j] = self._force_unimodality(completeness[:, j])

The column loop is exactly `_force_z_unimodality` applied to the batch. -/
def postEnforce (batch : List (List ℚ)) : List (List ℚ) :=
  forceZUnimodality (batch.map forceUnimodality)

/- `Completeness.__call__` with scalar magnitude and redshift.  The scalar
interpolation result becomes a 1x1 batch under `np.atleast_2d` and is returned
squeezed back to a scalar:

    dm = m - self.m5_det
    dm = np.clip(dm, self.table.columns.min(), None)
    completeness = self._interpolator((z, dm))
    completeness = np.clip(completeness, 0, None)
    ... unimodality loops ...
    return completeness.squeeze()
-/
def callScalar (s : Completeness) (m z : ℚ) : ℚ :=
  let dm := m - s.m5_det
  let dmc := max dm (minOf s.cols)
  let c := interp2d s.zs s.cols s.table z dmc
  ent (postEnforce [[max c 0]]) 0 0

/- Error message numpy produces when the query arrays cannot be broadcast. -/
def broadcastErrorMsg : String :=
  "shape mismatch: objects cannot be broadcast to a single shape"

/- `Completeness.__call__` with 1-D array magnitude and redshift.  Numpy
broadcasting inside `self._interpolator((z, dm))` accepts equal lengths or a
length-1 array against any other length, and raises `ValueError` otherwise.
A 1-D result of length n becomes a 1 x n batch under `np.atleast_2d`, so the
row pass applies `_force_unimodality` across the n query outputs and the
column pass acts on singletons. -/
def callArr (s : Completeness) (m z : List ℚ) : Except PyError (List ℚ) :=
  if m.length = z.length ∨ m.length = 1 ∨ z.length = 1 then
    let n := max m.length z.length
    let mb := if m.length = 1 then List.replicate n (m.getD 0 0) else m
    let zb := if z.length = 1 then List.replicate n (z.getD 0 0) else z
    let cs := List.zipWith
      (fun mi zi =>
        let dmc := max (mi - s.m5_det) (minOf s.cols)
        max (interp2d s.zs s.cols s.table zi dmc) 0)
      mb zb
    .ok ((postEnforce [cs]).getD 0 [])
  else .error (.valueError broadcastErrorMsg)

-- ---------------------------------------------------------------------------
-- The table loader (file search in Completeness.__init__)
-- ---------------------------------------------------------------------------

/- The file name convention `completeness_<band>.dat`. -/
def completenessFileName (band : String) : String :=
  "completeness_" ++ band ++ ".dat"

/- Message of the error raised when no data directory holds the table. -/
def tableNotFoundMessage (band : String) : String :=
  completenessFileName band ++ " not found in any data directory.\n" ++
  "Perhaps you need to run \x60from lbg_tools import data\x60 and " ++
  "\x60data.add_directory(\x27path/to/files\x27)\x60 before creating the " ++
  "completeness object."

/- The search loop over `data.directories`: each directory is modelled by the
list of file names it holds; the first directory containing the table file
wins. -/
def findTableDir (dirs : List (List String)) (band : String) :
    Option (List String) :=
  dirs.find? (fun d => d.contains (completenessFileName band))

/- The load phase of `Completeness.__init__`: either the directory whose table
file is parsed, or the `ValueError` raised when no directory has the file. -/
def initLoad (dirs : List (List String)) (band : String) :
    Except PyError (List String) :=
  match findTableDir dirs band with
  | some d => .ok d
  | none => .error (.valueError (tableNotFoundMessage band))

-- ---------------------------------------------------------------------------
-- Heap model for the in-place enforcement (aliasing of table0 / table)
-- ---------------------------------------------------------------------------

/- A store mapping references to DataFrame values. -/
def Store : Type := ℕ → List (List ℚ)

/- Write one reference of the store. -/
def storeWrite (σ : Store) (r : ℕ) (t : List (List ℚ)) : Store :=
  fun q => if q = r then t else σ q

/- The empty store. -/
def emptyStore : Store := fun _ => []

/- `_force_mag_monotonicity(table)`: the `table.iloc[...] = ...` statements
mutate the argument DataFrame in place and the function returns its argument,
so the result is the same reference with updated contents. -/
def forceMagMonotonicityRef (σ : Store) (r : ℕ) : Store × ℕ :=
  (storeWrite σ r (forceMagMonotonicity (σ r)), r)

/- `_force_z_unimodality(table)`: likewise mutates in place and returns its
argument. -/
def forceZUnimodalityRef (σ : Store) (r : ℕ) : Store × ℕ :=
  (storeWrite σ r (forceZUnimodality (σ r)), r)

/- The object fields of a constructed estimator that hold DataFrames, as
references into the store. -/
structure CompletenessObj where
  table0Ref : ℕ
  tableRef : ℕ

/- The DataFrame part of `Completeness.__init__`:

    self.table0 = pd.read_csv(...)                       -- fresh object
    self.table = self._force_z_unimodality(
        self._force_mag_monotonicity(self.table0))
-/
def initObj (raw : List (List ℚ)) : CompletenessObj × Store :=
  let r0 := 0
  let σ0 := storeWrite emptyStore r0 raw
  let s1 := forceMagMonotonicityRef σ0 r0
  let s2 := forceZUnimodalityRef s1.1 s1.2
  ({ table0Ref := r0, tableRef := s2.2 }, s2.1)

-- ---------------------------------------------------------------------------
-- Concrete instances used by counterexamples and witnesses
-- ---------------------------------------------------------------------------

/- A 1-D array whose first entry is within `np.isclose` tolerance of the
maximum without being equal to it. -/
def cexList2 : List ℚ := [499999/100000, 5]

/- A one-row table whose middle entry is zero. -/
def cexZeroRow : List (List ℚ) := [[1/2, 0, 3/10]]

/- A 2 x 2 raw table (already a fixed point of both enforcement passes) whose
brighter column has a small entry within tolerance of the fainter column
maximum. -/
def cexRaw : List (List ℚ) := [[499999/10000000, 499999/10000000], [1, 1/20]]

/- An estimator built from a well-formed [0, 1]-valued table whose columns
increase towards the redshift edge. -/
def cexState : Completeness :=
  mkCompleteness "u" 0 [0, 1] [0, 1] [[1/2, 1/2], [1, 1]]

/- A constant table for witnesses. -/
def rawOnes : List (List ℚ) := [[1, 1], [1, 1]]

-- ---------------------------------------------------------------------------
-- Basic lemmas about maxOf
-- ---------------------------------------------------------------------------

theorem maxOf_cons (x : ℚ) (xs : List ℚ) (h : xs ≠ []) :
    maxOf (x :: xs) = max x (maxOf xs) := by
  simp [maxOf, List.isEmpty_iff, h]

theorem le_maxOf {x : ℚ} {l : List ℚ} (h : x ∈ l) : x ≤ maxOf l := by
  induction l with
  | nil => cases h
  | cons y ys ih =>
    rcases List.mem_cons.mp h with rfl | hm
    · rcases List.eq_nil_or_concat ys with rfl | _
      · simp [maxOf]
      · have : ys ≠ [] := by rintro rfl; simp_all
        rw [maxOf_cons _ _ this]; exact le_max_left _ _
    · have hne : ys ≠ [] := by rintro rfl; cases hm
      rw [maxOf_cons _ _ hne]
      exact le_trans (ih hm) (le_max_right _ _)

theorem maxOf_le {l : List ℚ} {c : ℚ} (hne : l ≠ []) (h : ∀ x ∈ l, x ≤ c) :
    maxOf l ≤ c := by
  induction l with
  | nil => cases hne rfl
  | cons y ys ih =>
    rcases List.eq_nil_or_concat ys with rfl | _
    · simpa [maxOf] using h y (by simp)
    · have hne2 : ys ≠ [] := by rintro rfl; simp_all
      rw [maxOf_cons _ _ hne2]
      exact max_le (h y (by simp)) (ih hne2 (fun x hx => h x (by simp [hx])))

theorem maxOf_mem {l : List ℚ} (hne : l ≠ []) : maxOf l ∈ l := by
  induction l with
  | nil => cases hne rfl
  | cons y ys ih =>
    rcases List.eq_nil_or_concat ys with rfl | _
    · simp [maxOf]
    · have hne2 : ys ≠ [] := by rintro rfl; simp_all
      rw [maxOf_cons _ _ hne2]
      rcases max_choice y (maxOf ys) with h | h <;> rw [h]
      · exact List.mem_cons_self _ _
      · exact List.mem_cons_of_mem _ (ih hne2)

-- ---------------------------------------------------------------------------
-- Index / membership helpers
-- ---------------------------------------------------------------------------

theorem getD_mem {l : List ℚ} {i : ℕ} (hi : i < l.length) : l.getD i 0 ∈ l := by
  rw [List.getD_eq_getElem l 0 hi]; exact List.getElem_mem hi

theorem mem_index {l : List ℚ} {x : ℚ} (hx : x ∈ l) :
    ∃ k, k < l.length ∧ l.getD k 0 = x := by
  rcases List.mem_iff_getElem.mp hx with ⟨k, hk, he⟩
  exact ⟨k, hk, by rw [List.getD_eq_getElem l 0 hk]; exact he⟩

theorem mem_take_of_index (l : List ℚ) {k n : ℕ} (hk : k < n) (hkl : k < l.length) :
    l.getD k 0 ∈ l.take n := by
  have hlen : k < (l.take n).length := by simp [List.length_take]; omega
  have h2 : (l.take n)[k] = l[k] := List.getElem_take l
  rw [List.getD_eq_getElem l 0 hkl, ← h2]
  exact List.getElem_mem hlen

theorem take_mem_index {l : List ℚ} {n : ℕ} {x : ℚ} (hx : x ∈ l.take n) :
    ∃ k, k < n ∧ k < l.length ∧ l.getD k 0 = x := by
  rcases List.mem_iff_getElem.mp hx with ⟨k, hk, he⟩
  have hlen := hk
  simp only [List.length_take, lt_min_iff] at hlen
  refine ⟨k, hlen.1, hlen.2, ?_⟩
  have h2 : (l.take n)[k] = l[k] := List.getElem_take l
  rw [List.getD_eq_getElem l 0 hlen.2, ← h2]
  exact he

theorem mem_drop_of_index (l : List ℚ) {k n : ℕ} (hn : n ≤ k) (hk : k < l.length) :
    l.getD k 0 ∈ l.drop n := by
  have hlen : k - n < (l.drop n).length := by simp [List.length_drop]; omega
  have hnk : n + (k - n) < l.length := by omega
  have h1 : (l.drop n)[k - n] = l[n + (k - n)] := List.getElem_drop l
  have h2 : l[n + (k - n)] = l[k] := by
    congr 1
    omega
  rw [List.getD_eq_getElem l 0 hk, ← h2, ← h1]
  exact List.getElem_mem hlen

theorem drop_mem_index {l : List ℚ} {n : ℕ} {x : ℚ} (hx : x ∈ l.drop n) :
    ∃ k, n ≤ k ∧ k < l.length ∧ l.getD k 0 = x := by
  rcases List.mem_iff_getElem.mp hx with ⟨k, hk, he⟩
  have hlen := hk
  simp only [List.length_drop] at hlen
  refine ⟨n + k, Nat.le_add_right _ _, by omega, ?_⟩
  rw [List.getD_eq_getElem l 0 (by omega : n + k < l.length), ← List.getElem_drop l]
  exact he

theorem take_ne_nil {l : List ℚ} {n : ℕ} (hn : 0 < n) (hl : l ≠ []) :
    l.take n ≠ [] := by
  have : 0 < (l.take n).length := by
    simp [List.length_take]
    exact ⟨hn, List.length_pos.mpr hl⟩
  exact List.ne_nil_of_length_pos this

theorem drop_ne_nil {l : List ℚ} {n : ℕ} (hn : n < l.length) :
    l.drop n ≠ [] := by
  have : 0 < (l.drop n).length := by simp [List.length_drop]; omega
  exact List.ne_nil_of_length_pos this

-- ---------------------------------------------------------------------------
-- Prefix / suffix maxima
-- ---------------------------------------------------------------------------

theorem getD_le_maxOf_take {l : List ℚ} {i : ℕ} (hi : i < l.length) :
    l.getD i 0 ≤ maxOf (l.take (i + 1)) :=
  le_maxOf (mem_take_of_index l (Nat.lt_succ_self i) hi)

theorem getD_le_maxOf_drop {l : List ℚ} {i : ℕ} (hi : i < l.length) :
    l.getD i 0 ≤ maxOf (l.drop i) :=
  le_maxOf (mem_drop_of_index l (le_refl i) hi)

theorem maxOf_take_le {l : List ℚ} {n : ℕ} (hn : 0 < n) (hl : l ≠ []) :
    maxOf (l.take n) ≤ maxOf l :=
  maxOf_le (take_ne_nil hn hl) (fun _x hx => le_maxOf (List.take_subset n l hx))

theorem maxOf_drop_le {l : List ℚ} {n : ℕ} (hn : n < l.length) :
    maxOf (l.drop n) ≤ maxOf l :=
  maxOf_le (drop_ne_nil hn) (fun _x hx => le_maxOf (List.drop_subset n l hx))

theorem maxOf_take_mono {l : List ℚ} {i j : ℕ} (hij : i ≤ j) (hj : j < l.length) :
    maxOf (l.take (i + 1)) ≤ maxOf (l.take (j + 1)) := by
  have hi : i < l.length := lt_of_le_of_lt hij hj
  refine maxOf_le (take_ne_nil (Nat.succ_pos i) (List.ne_nil_of_length_pos (by omega))) ?_
  intro x hx
  rcases take_mem_index hx with ⟨k, hk1, hk2, rfl⟩
  exact le_maxOf (mem_take_of_index l (by omega) hk2)

theorem maxOf_drop_anti {l : List ℚ} {i j : ℕ} (hij : i ≤ j) (hj : j < l.length) :
    maxOf (l.drop j) ≤ maxOf (l.drop i) := by
  refine maxOf_le (drop_ne_nil hj) ?_
  intro x hx
  rcases drop_mem_index hx with ⟨k, hk1, hk2, rfl⟩
  exact le_maxOf (mem_drop_of_index l (by omega) hk2)

theorem argmax_take {l : List ℚ} {i : ℕ} (hi : i < l.length) :
    ∃ k, k ≤ i ∧ k < l.length ∧ l.getD k 0 = maxOf (l.take (i + 1)) := by
  have hne : l.take (i + 1) ≠ [] :=
    take_ne_nil (Nat.succ_pos i) (List.ne_nil_of_length_pos (by omega))
  rcases take_mem_index (maxOf_mem hne) with ⟨k, hk1, hk2, he⟩
  exact ⟨k, by omega, hk2, he⟩

theorem argmax_drop {l : List ℚ} {i : ℕ} (hi : i < l.length) :
    ∃ k, i ≤ k ∧ k < l.length ∧ l.getD k 0 = maxOf (l.drop i) := by
  rcases drop_mem_index (maxOf_mem (drop_ne_nil hi)) with ⟨k, hk1, hk2, he⟩
  exact ⟨k, hk1, hk2, he⟩

theorem maxOf_take_length (l : List ℚ) (hl : l ≠ []) :
    maxOf (l.take ((l.length - 1) + 1)) = maxOf l := by
  have : (l.length - 1) + 1 = l.length := by
    have : 0 < l.length := List.length_pos.mpr hl
    omega
  rw [this, List.take_length]

-- ---------------------------------------------------------------------------
-- Characterization of frontMono / backMono / forceUnimodality
-- ---------------------------------------------------------------------------

theorem length_frontAux (c : ℚ) (l : List ℚ) : (frontAux c l).length = l.length := by
  induction l generalizing c with
  | nil => rfl
  | cons x xs ih => simp [frontAux, ih]

theorem length_frontMono (l : List ℚ) : (frontMono l).length = l.length := by
  cases l with
  | nil => rfl
  | cons x xs => simp [frontMono, length_frontAux]

theorem backMono_unfold (x : ℚ) (xs : List ℚ) :
    backMono (x :: xs) = maxOf (x :: xs) :: backMono xs := by
  induction xs generalizing x with
  | nil => simp [backMono, maxOf]
  | cons z zs ih =>
    rw [backMono]
    rw [ih z]
    rw [maxOf_cons x (z :: zs) (by simp)]

theorem length_backMono (l : List ℚ) : (backMono l).length = l.length := by
  induction l with
  | nil => rfl
  | cons x xs ih => rw [backMono_unfold]; simp [ih]

theorem length_forceUnimodality (l : List ℚ) :
    (forceUnimodality l).length = l.length := by
  simp [forceUnimodality, List.length_zipWith, length_frontMono, length_backMono]

theorem frontAux_getD (l : List ℚ) (c : ℚ) (i : ℕ) (hi : i < l.length) :
    (frontAux c l).getD i 0 = max c (maxOf (l.take (i + 1))) := by
  induction l generalizing c i with
  | nil => simp at hi
  | cons x xs ih =>
    cases i with
    | zero => simp [frontAux, maxOf]
    | succ i =>
      have hix : i < xs.length := by simpa using hi
      have htake : xs.take (i + 1) ≠ [] :=
        take_ne_nil (Nat.succ_pos i) (List.ne_nil_of_length_pos (by omega))
      simp only [frontAux, List.getD_cons_succ]
      rw [ih (max c x) i hix, List.take_cons (by omega)]
      simp only [Nat.add_sub_cancel]
      rw [maxOf_cons x _ htake, max_assoc]

theorem frontMono_getD (l : List ℚ) (i : ℕ) (hi : i < l.length) :
    (frontMono l).getD i 0 = maxOf (l.take (i + 1)) := by
  cases l with
  | nil => simp at hi
  | cons x xs =>
    cases i with
    | zero => simp [frontMono, maxOf]
    | succ i =>
      have hix : i < xs.length := by simpa using hi
      have htake : xs.take (i + 1) ≠ [] :=
        take_ne_nil (Nat.succ_pos i) (List.ne_nil_of_length_pos (by omega))
      simp only [frontMono, List.getD_cons_succ]
      rw [frontAux_getD xs x i hix, List.take_cons (by omega)]
      simp only [Nat.add_sub_cancel]
      rw [maxOf_cons x _ htake]

theorem backMono_getD (l : List ℚ) (i : ℕ) (hi : i < l.length) :
    (backMono l).getD i 0 = maxOf (l.drop i) := by
  induction l generalizing i with
  | nil => simp at hi
  | cons x xs ih =>
    rw [backMono_unfold]
    cases i with
    | zero => simp
    | succ i =>
      have hix : i < xs.length := by simpa using hi
      simp only [List.getD_cons_succ, List.drop_succ_cons]
      exact ih i hix

theorem maxOf_frontMono (l : List ℚ) (hl : l ≠ []) :
    maxOf (frontMono l) = maxOf l := by
  have hlen : 0 < l.length := List.length_pos.mpr hl
  have hfne : frontMono l ≠ [] :=
    List.ne_nil_of_length_pos (by rw [length_frontMono]; omega)
  apply le_antisymm
  · refine maxOf_le hfne ?_
    intro x hx
    rcases mem_index hx with ⟨k, hk, rfl⟩
    rw [length_frontMono] at hk
    rw [frontMono_getD l k hk]
    exact maxOf_take_le (Nat.succ_pos k) hl
  · have h1 : (frontMono l).getD (l.length - 1) 0 = maxOf l := by
      rw [frontMono_getD l _ (by omega)]
      exact maxOf_take_length l hl
    rw [← h1]
    exact le_maxOf (getD_mem (by rw [length_frontMono]; omega))

theorem forceUnimodality_getD (a : List ℚ) (ha : a ≠ []) (i : ℕ) (hi : i < a.length) :
    (forceUnimodality a).getD i 0 =
      if iscloseQ (maxOf (a.take (i + 1))) (maxOf a)
      then maxOf (a.drop i) else maxOf (a.take (i + 1)) := by
  have hif : i < (frontMono a).length := by rw [length_frontMono]; omega
  have hib : i < (backMono a).length := by rw [length_backMono]; omega
  have hiz : i < (forceUnimodality a).length := by rw [length_forceUnimodality]; omega
  rw [List.getD_eq_getElem _ 0 hiz]
  have hz : (forceUnimodality a)[i] =
      (fun f b => if iscloseQ f (maxOf (frontMono a)) then b else f)
        ((frontMono a)[i]) ((backMono a)[i]) := List.getElem_zipWith
  rw [hz]
  simp only
  rw [← List.getD_eq_getElem (frontMono a) 0 hif, ← List.getD_eq_getElem (backMono a) 0 hib]
  rw [frontMono_getD a i hi, backMono_getD a i hi, maxOf_frontMono a ha]

-- ---------------------------------------------------------------------------
-- iscloseQ facts
-- ---------------------------------------------------------------------------

theorem absQ_nonneg (x : ℚ) : 0 ≤ absQ x := by
  unfold absQ; split <;> linarith

theorem absQ_sub_of_le {x M : ℚ} (h : x ≤ M) : absQ (x - M) = M - x := by
  unfold absQ
  by_cases h2 : x - M < 0
  · rw [if_pos h2]; ring
  · have h3 : x = M := by
      have h4 : 0 ≤ x - M := not_lt.mp h2
      linarith
    subst h3
    rw [if_neg h2]

theorem iscloseQ_self (b : ℚ) : iscloseQ b b = true := by
  have h1 : (0 : ℚ) < atolQ := by norm_num [atolQ]
  have h2 : (0 : ℚ) ≤ rtolQ * absQ b := by
    have := absQ_nonneg b
    have : (0 : ℚ) ≤ rtolQ := by norm_num [rtolQ]
    positivity
  simp only [iscloseQ, sub_self, decide_eq_true_eq]
  have : absQ 0 = 0 := by norm_num [absQ]
  rw [this]
  linarith

theorem iscloseQ_iff_of_le {x M : ℚ} (h : x ≤ M) :
    iscloseQ x M = true ↔ M - (atolQ + rtolQ * absQ M) ≤ x := by
  simp only [iscloseQ, decide_eq_true_eq, absQ_sub_of_le h]
  constructor <;> intro <;> linarith

theorem iscloseQ_le_mono {x y M : ℚ} (hxy : x ≤ y) (hyM : y ≤ M)
    (hx : iscloseQ x M = true) : iscloseQ y M = true := by
  rw [iscloseQ_iff_of_le (le_trans hxy hyM)] at hx
  rw [iscloseQ_iff_of_le hyM]
  linarith

-- ---------------------------------------------------------------------------
-- Core properties of forceUnimodality
-- ---------------------------------------------------------------------------

theorem forceUnimodality_ge (a : List ℚ) (ha : a ≠ []) (i : ℕ) (hi : i < a.length) :
    a.getD i 0 ≤ (forceUnimodality a).getD i 0 := by
  rw [forceUnimodality_getD a ha i hi]
  split
  · exact getD_le_maxOf_drop hi
  · exact getD_le_maxOf_take hi

theorem mask_exists (a : List ℚ) (ha : a ≠ []) :
    ∃ i, iscloseQ (maxOf (a.take (i + 1))) (maxOf a) = true :=
  ⟨a.length - 1, by rw [maxOf_take_length a ha]; exact iscloseQ_self _⟩

theorem mask_peak (a : List ℚ) (ha : a ≠ []) :
    ∃ p, p < a.length ∧
      (∀ i, i < p → (forceUnimodality a).getD i 0 = maxOf (a.take (i + 1))) ∧
      (∀ i, p ≤ i → i < a.length → (forceUnimodality a).getD i 0 = maxOf (a.drop i)) ∧
      iscloseQ (maxOf (a.take (p + 1))) (maxOf a) = true ∧
      (∀ i, i < p → iscloseQ (maxOf (a.take (i + 1))) (maxOf a) = false) := by
  have hlen : 0 < a.length := List.length_pos.mpr ha
  set p := Nat.find (mask_exists a ha) with hpdef
  have hspec : iscloseQ (maxOf (a.take (p + 1))) (maxOf a) = true :=
    Nat.find_spec (mask_exists a ha)
  have hmin : ∀ i, i < p → iscloseQ (maxOf (a.take (i + 1))) (maxOf a) = false := by
    intro i hi
    have := Nat.find_min (mask_exists a ha) hi
    simpa using this
  have hple : p ≤ a.length - 1 := by
    apply Nat.find_le
    rw [maxOf_take_length a ha]
    exact iscloseQ_self _
  have hplt : p < a.length := by omega
  refine ⟨p, hplt, ?_, ?_, hspec, hmin⟩
  · intro i hi
    rw [forceUnimodality_getD a ha i (by omega)]
    rw [if_neg (by rw [hmin i hi]; simp)]
  · intro i hpi hia
    rw [forceUnimodality_getD a ha i hia]
    rw [if_pos]
    exact iscloseQ_le_mono (maxOf_take_mono hpi hia)
      (maxOf_take_le (Nat.succ_pos i) ha) hspec

theorem forceUnimodality_unimodal (a : List ℚ) (ha : a ≠ []) :
    Unimodal (forceUnimodality a) := by
  obtain ⟨p, hp, hfr, hbk, _hmp, _hmin⟩ := mask_peak a ha
  have hlen : (forceUnimodality a).length = a.length := length_forceUnimodality a
  rcases Nat.eq_zero_or_pos p with hp0 | hp0
  · refine ⟨0, by omega, fun k hk => absurd hk (by omega), ?_⟩
    intro k hk hk0 hk1
    rw [hbk k (by omega) (by omega), hbk (k + 1) (by omega) (by omega)]
    exact maxOf_drop_anti (Nat.le_succ k) (by omega)
  · by_cases hc : maxOf (a.take ((p - 1) + 1)) ≤ maxOf (a.drop p)
    · refine ⟨p, by omega, ?_, ?_⟩
      · intro k hk
        rw [hfr k hk]
        rcases lt_or_eq_of_le (Nat.succ_le_of_lt hk) with hk1 | hk1
        · rw [hfr (k + 1) hk1]
          exact maxOf_take_mono (Nat.le_succ k) (by omega)
        · rw [show k + 1 = p from hk1, hbk p (le_refl p) hp]
          have hpp : p - 1 + 1 = p := by omega
          rw [hpp] at hc
          exact hc
      · intro k hk hkp hk1
        rw [hbk k (by omega) (by omega), hbk (k + 1) (by omega) (by omega)]
        exact maxOf_drop_anti (Nat.le_succ k) (by omega)
    · push_neg at hc
      refine ⟨p - 1, by omega, ?_, ?_⟩
      · intro k hk
        rw [hfr k (by omega), hfr (k + 1) (by omega)]
        exact maxOf_take_mono (Nat.le_succ k) (by omega)
      · intro k hk hkp hk1
        rcases Nat.lt_or_ge k p with hkp2 | hkp2
        · rw [hfr k (by omega)]
          rw [show k + 1 = p by omega, hbk p (le_refl p) hp]
          have hpp : p - 1 + 1 = p := by omega
          rw [hpp] at hc
          exact le_of_lt hc
        · rw [hbk k hkp2 (by omega), hbk (k + 1) (by omega) (by omega)]
          exact maxOf_drop_anti (Nat.le_succ k) (by omega)

theorem forceUnimodality_ne_nil {a : List ℚ} (ha : a ≠ []) :
    forceUnimodality a ≠ [] := by
  apply List.ne_nil_of_length_pos
  rw [length_forceUnimodality]
  exact List.length_pos.mpr ha

theorem forceUnimodality_maxOf (a : List ℚ) (ha : a ≠ []) :
    maxOf (forceUnimodality a) = maxOf a := by
  have hlen : (forceUnimodality a).length = a.length := length_forceUnimodality a
  apply le_antisymm
  · refine maxOf_le (forceUnimodality_ne_nil ha) ?_
    intro x hx
    rcases mem_index hx with ⟨k, hk, rfl⟩
    rw [hlen] at hk
    rw [forceUnimodality_getD a ha k hk]
    split
    · exact maxOf_drop_le hk
    · exact maxOf_take_le (Nat.succ_pos k) ha
  · rcases mem_index (maxOf_mem ha) with ⟨k, hk, hak⟩
    calc maxOf a = a.getD k 0 := hak.symm
      _ ≤ (forceUnimodality a).getD k 0 := forceUnimodality_ge a ha k hk
      _ ≤ maxOf (forceUnimodality a) := le_maxOf (getD_mem (by omega))

-- ---------------------------------------------------------------------------
-- Chain lemmas for the unimodality predicates
-- ---------------------------------------------------------------------------

theorem nonDecr_chain {b : List ℚ} {p i j : ℕ} (h : NonDecrUpTo b p)
    (hij : i ≤ j) (hjp : j ≤ p) : b.getD i 0 ≤ b.getD j 0 := by
  induction j, hij using Nat.le_induction with
  | base => exact le_refl _
  | succ j hij ih =>
    exact le_trans (ih (by omega)) (h j (by omega))

theorem nonIncr_chain {b : List ℚ} {p i j : ℕ} (h : NonIncrFrom b p)
    (hpi : p ≤ i) (hij : i ≤ j) (hj : j < b.length) : b.getD j 0 ≤ b.getD i 0 := by
  induction j, hij using Nat.le_induction with
  | base => exact le_refl _
  | succ j hij ih =>
    exact le_trans (h j (by omega) (by omega) hj) (ih (by omega))

-- ---------------------------------------------------------------------------
-- Minimality of the unimodal envelope, under exact near-maximum detection
-- ---------------------------------------------------------------------------

theorem maxOf_take_one (a : List ℚ) (ha : a ≠ []) :
    maxOf (a.take 1) = a.getD 0 0 := by
  cases a with
  | nil => cases ha rfl
  | cons x xs => simp [maxOf]

theorem forceUnimodality_min (a : List ℚ) (ha : a ≠ [])
    (hex : ∀ i, i < a.length →
      iscloseQ (maxOf (a.take (i + 1))) (maxOf a) = true →
      maxOf (a.take (i + 1)) = maxOf a)
    (b : List ℚ) (hblen : b.length = a.length) (hb : Unimodal b)
    (hdom : ∀ i, i < a.length → a.getD i 0 ≤ b.getD i 0) :
    ∀ i, i < a.length → (forceUnimodality a).getD i 0 ≤ b.getD i 0 := by
  obtain ⟨p, hp, hfr, hbk, hmp, hmin⟩ := mask_peak a ha
  obtain ⟨q, hq, hbd, hbi⟩ := hb
  -- the peak of the mask attains the maximum of `a` exactly
  have hpref : maxOf (a.take (p + 1)) = maxOf a := hex p hp hmp
  have hap : a.getD p 0 = maxOf a := by
    rcases argmax_take hp with ⟨k, hkp, hkl, hk⟩
    rcases lt_or_eq_of_le hkp with hklt | rfl
    · exfalso
      have h1 : a.getD k 0 ≤ maxOf (a.take (k + 1)) := getD_le_maxOf_take hkl
      have h2 : maxOf (a.take (k + 1)) ≤ maxOf a := maxOf_take_le (Nat.succ_pos k) ha
      have h3 : maxOf (a.take (k + 1)) = maxOf a := by
        rw [hk, hpref] at h1
        linarith
      have h4 := hmin k hklt
      rw [h3, iscloseQ_self] at h4
      cases h4
    · rw [hk, hpref]
  have hbp : maxOf a ≤ b.getD p 0 := by
    rw [← hap]; exact hdom p hp
  intro i hi
  rcases Nat.lt_or_ge i p with hip | hip
  · -- front part: the result is the forward running maximum
    rw [hfr i hip]
    rcases argmax_take hi with ⟨k, hki, hkl, hk⟩
    rcases le_or_lt i q with hiq | hiq
    · calc maxOf (a.take (i + 1)) = a.getD k 0 := hk.symm
        _ ≤ b.getD k 0 := hdom k hkl
        _ ≤ b.getD i 0 := nonDecr_chain hbd hki hiq
    · calc maxOf (a.take (i + 1)) ≤ maxOf a := maxOf_take_le (Nat.succ_pos i) ha
        _ ≤ b.getD p 0 := hbp
        _ ≤ b.getD i 0 := nonIncr_chain hbi (by omega) (by omega) (by omega)
  · -- back part: the result is the backward running maximum
    rw [hbk i hip hi]
    rcases argmax_drop hi with ⟨k, hik, hkl, hk⟩
    rcases le_or_lt q i with hqi | hqi
    · calc maxOf (a.drop i) = a.getD k 0 := hk.symm
        _ ≤ b.getD k 0 := hdom k hkl
        _ ≤ b.getD i 0 := nonIncr_chain hbi hqi hik (by omega)
    · calc maxOf (a.drop i) ≤ maxOf a := maxOf_drop_le hi
        _ ≤ b.getD p 0 := hbp
        _ ≤ b.getD i 0 := nonDecr_chain hbd hip (by omega)

-- ---------------------------------------------------------------------------
-- Pointwise domination with tolerance slack
-- ---------------------------------------------------------------------------

theorem tol_nonneg (x : ℚ) : 0 ≤ atolQ + rtolQ * absQ x := by
  have h1 : (0 : ℚ) ≤ atolQ := by norm_num [atolQ]
  have h2 : (0 : ℚ) ≤ rtolQ := by norm_num [rtolQ]
  have h3 := absQ_nonneg x
  have := mul_nonneg h2 h3
  linarith

theorem maxOf_take_pointwise {a b : List ℚ} (hblen : b.length = a.length)
    (hdom : ∀ i, i < a.length → b.getD i 0 ≤ a.getD i 0)
    {i : ℕ} (hi : i < a.length) :
    maxOf (b.take (i + 1)) ≤ maxOf (a.take (i + 1)) := by
  have hb : b ≠ [] := by
    apply List.ne_nil_of_length_pos; omega
  refine maxOf_le (take_ne_nil (Nat.succ_pos i) hb) ?_
  intro x hx
  rcases take_mem_index hx with ⟨k, hk1, hk2, rfl⟩
  calc b.getD k 0 ≤ a.getD k 0 := hdom k (by omega)
    _ ≤ maxOf (a.take (i + 1)) := le_maxOf (mem_take_of_index a (by omega) (by omega))

theorem maxOf_drop_pointwise {a b : List ℚ} (hblen : b.length = a.length)
    (hdom : ∀ i, i < a.length → b.getD i 0 ≤ a.getD i 0)
    {i : ℕ} (hi : i < a.length) :
    maxOf (b.drop i) ≤ maxOf (a.drop i) := by
  refine maxOf_le (drop_ne_nil (by omega)) ?_
  intro x hx
  rcases drop_mem_index hx with ⟨k, hk1, hk2, rfl⟩
  calc b.getD k 0 ≤ a.getD k 0 := hdom k (by omega)
    _ ≤ maxOf (a.drop i) := le_maxOf (mem_drop_of_index a hk1 (by omega))

theorem forceUnimodality_slack (a b : List ℚ) (ha : a ≠ [])
    (hblen : b.length = a.length)
    (hdom : ∀ i, i < a.length → b.getD i 0 ≤ a.getD i 0) :
    ∀ i, i < a.length →
      (forceUnimodality b).getD i 0 ≤
        (forceUnimodality a).getD i 0 + (atolQ + rtolQ * absQ (maxOf b)) := by
  have hb : b ≠ [] := by
    apply List.ne_nil_of_length_pos
    have : 0 < a.length := List.length_pos.mpr ha
    omega
  intro i hi
  have hib : i < b.length := by omega
  rw [forceUnimodality_getD a ha i hi, forceUnimodality_getD b hb i hib]
  have htol := tol_nonneg (maxOf b)
  by_cases hmb : iscloseQ (maxOf (b.take (i + 1))) (maxOf b) = true
  · rw [if_pos hmb]
    by_cases hma : iscloseQ (maxOf (a.take (i + 1))) (maxOf a) = true
    · rw [if_pos hma]
      have := maxOf_drop_pointwise hblen hdom hi
      linarith
    · rw [if_neg hma]
      -- masked in b, unmasked in a: the suffix maximum of b is within
      -- tolerance of the prefix maximum of b, which the prefix maximum of a
      -- dominates
      have h1 : maxOf (b.drop i) ≤ maxOf b := maxOf_drop_le hib
      have h2 : maxOf b - (atolQ + rtolQ * absQ (maxOf b)) ≤ maxOf (b.take (i + 1)) :=
        (iscloseQ_iff_of_le (maxOf_take_le (Nat.succ_pos i) hb)).mp hmb
      have h3 := maxOf_take_pointwise hblen hdom hi
      linarith
  · rw [if_neg hmb]
    have hplt : maxOf (b.take (i + 1)) < maxOf b := by
      have h1 : maxOf (b.take (i + 1)) ≤ maxOf b := maxOf_take_le (Nat.succ_pos i) hb
      rcases lt_or_eq_of_le h1 with h2 | h2
      · exact h2
      · exfalso
        rw [h2, iscloseQ_self] at hmb
        cases hmb rfl
    by_cases hma : iscloseQ (maxOf (a.take (i + 1))) (maxOf a) = true
    · rw [if_pos hma]
      -- unmasked in b, masked in a: the maximum of b is attained after i
      rcases mem_index (maxOf_mem hb) with ⟨k, hk, hbk⟩
      have hik : i < k := by
        by_contra hik
        push_neg at hik
        have : maxOf b ≤ maxOf (b.take (i + 1)) := by
          rw [← hbk]
          exact le_maxOf (mem_take_of_index b (by omega) hk)
        linarith
      have h1 : b.getD k 0 ≤ a.getD k 0 := hdom k (by omega)
      have h2 : a.getD k 0 ≤ maxOf (a.drop i) :=
        le_maxOf (mem_drop_of_index a (by omega) (by omega))
      rw [hbk] at h1
      linarith
    · rw [if_neg hma]
      have := maxOf_take_pointwise hblen hdom hi
      linarith

-- ---------------------------------------------------------------------------
-- Characterization of the magnitude-monotonicity pass
-- ---------------------------------------------------------------------------

theorem magScan_none_iff (r : List ℚ) :
    magScan r = none ↔ ∃ x ∈ r, iscloseQ x 0 = true := by
  induction r with
  | nil => simp [magScan]
  | cons x xs ih =>
    by_cases h : iscloseQ x 0 = true
    · simp [magScan, h]
    · simp only [magScan, if_neg h]
      constructor
      · intro hmap
        have hnone : magScan xs = none := by
          cases hm : magScan xs with
          | none => rfl
          | some v => rw [hm] at hmap; simp at hmap
        rcases ih.mp hnone with ⟨y, hy, hyc⟩
        exact ⟨y, by simp [hy], hyc⟩
      · rintro ⟨y, hy, hyc⟩
        rcases List.mem_cons.mp hy with rfl | hy2
        · exact absurd hyc h
        · rw [ih.mpr ⟨y, hy2, hyc⟩]
          rfl

theorem magScan_some (r : List ℚ) (h : ∀ x ∈ r, iscloseQ x 0 = false) :
    magScan r = some (backMono r) := by
  induction r with
  | nil => rfl
  | cons x xs ih =>
    have hx : iscloseQ x 0 = false := h x (by simp)
    rw [magScan, if_neg (by simp [hx])]
    rw [ih (fun y hy => h y (by simp [hy]))]
    rw [backMono_unfold]
    rfl

theorem forceMagRow_eq (r : List ℚ) :
    forceMagRow r =
      if r.any (fun x => iscloseQ x 0) then List.replicate r.length 0
      else backMono r := by
  by_cases h : r.any (fun x => iscloseQ x 0) = true
  · rw [if_pos h]
    unfold forceMagRow
    rw [(magScan_none_iff r).mpr (by simpa using List.any_eq_true.mp h)]
    rfl
  · rw [if_neg (by simpa using h)]
    unfold forceMagRow
    have h2 : ∀ x ∈ r, iscloseQ x 0 = false := by
      intro x hx
      rcases Bool.eq_false_or_eq_true (iscloseQ x 0) with h3 | h3
      · exact absurd (List.any_eq_true.mpr ⟨x, hx, h3⟩) h
      · exact h3
    rw [magScan_some r h2]
    rfl

theorem length_forceMagRow (r : List ℚ) : (forceMagRow r).length = r.length := by
  rw [forceMagRow_eq]
  split
  · simp
  · exact length_backMono r

theorem replicate_getD_zero (n i : ℕ) : (List.replicate n (0 : ℚ)).getD i 0 = 0 := by
  induction n generalizing i with
  | zero => simp
  | succ n ih =>
    cases i with
    | zero => simp
    | succ i => simp [ih i]

theorem forceMagRow_nonincr (r : List ℚ) {k : ℕ} (hk : k + 1 < r.length) :
    (forceMagRow r).getD (k + 1) 0 ≤ (forceMagRow r).getD k 0 := by
  rw [forceMagRow_eq]
  split
  · rw [replicate_getD_zero, replicate_getD_zero]
  · rw [backMono_getD r (k + 1) hk, backMono_getD r k (by omega)]
    exact maxOf_drop_anti (Nat.le_succ k) hk

theorem backMono_mem (r : List ℚ) : ∀ y ∈ backMono r, y ∈ r := by
  intro y hy
  rcases mem_index hy with ⟨k, hk, rfl⟩
  rw [length_backMono] at hk
  rw [backMono_getD r k hk]
  exact List.drop_subset k r (maxOf_mem (drop_ne_nil hk))

theorem forceUnimodality_mem (a : List ℚ) : ∀ y ∈ forceUnimodality a, y ∈ a := by
  intro y hy
  have ha : a ≠ [] := by
    rintro rfl
    simp [forceUnimodality, frontMono, backMono] at hy
  rcases mem_index hy with ⟨k, hk, rfl⟩
  rw [length_forceUnimodality] at hk
  rw [forceUnimodality_getD a ha k hk]
  split
  · exact List.drop_subset k a (maxOf_mem (drop_ne_nil hk))
  · exact List.take_subset (k + 1) a (maxOf_mem (take_ne_nil (Nat.succ_pos k) ha))

theorem forceMagRow_mem (r : List ℚ) : ∀ y ∈ forceMagRow r, y ∈ r ∨ y = 0 := by
  intro y hy
  rw [forceMagRow_eq] at hy
  revert hy
  split
  · intro hy
    right
    exact List.eq_of_mem_replicate hy
  · intro hy
    left
    exact backMono_mem r y hy

-- ---------------------------------------------------------------------------
-- Structure of the redshift-unimodality pass
-- ---------------------------------------------------------------------------

theorem getD_map_range {α : Type} (d : α) (n : ℕ) (f : ℕ → α) {j : ℕ} (hj : j < n) :
    ((List.range n).map f).getD j d = f j := by
  have hlen : j < ((List.range n).map f).length := by simpa using hj
  rw [List.getD_eq_getElem _ d hlen, List.getElem_map, List.getElem_range]

theorem length_forceZUnimodality (t : List (List ℚ)) :
    (forceZUnimodality t).length = t.length := by
  simp [forceZUnimodality]

theorem length_getCol (t : List (List ℚ)) (j : ℕ) : (getCol t j).length = t.length := by
  simp [getCol]

theorem getCol_getD (t : List (List ℚ)) (j : ℕ) {i : ℕ} (hi : i < t.length) :
    (getCol t j).getD i 0 = ent t i j := by
  unfold getCol ent
  have hlen : i < (t.map (fun r => r.getD j 0)).length := by simpa using hi
  rw [List.getD_eq_getElem _ 0 hlen, List.getElem_map,
    List.getD_eq_getElem t [] hi]

theorem ent_forceZUnimodality (t : List (List ℚ)) {i j : ℕ}
    (hi : i < t.length) (hj : j < ncols t) :
    ent (forceZUnimodality t) i j = (forceUnimodality (getCol t j)).getD i 0 := by
  unfold ent forceZUnimodality
  rw [getD_map_range [] t.length _ hi, getD_map_range 0 (ncols t) _ hj]

theorem getCol_forceZUnimodality (t : List (List ℚ)) {j : ℕ} (hj : j < ncols t) :
    getCol (forceZUnimodality t) j = forceUnimodality (getCol t j) := by
  apply List.ext_getElem
  · rw [length_getCol, length_forceZUnimodality, length_forceUnimodality, length_getCol]
  · intro i h1 h2
    have hit : i < t.length := by
      rw [length_getCol, length_forceZUnimodality] at h1
      exact h1
    have h3 : i < (forceZUnimodality t).length := by
      rw [length_forceZUnimodality]; exact hit
    rw [← List.getD_eq_getElem _ 0 h1, ← List.getD_eq_getElem _ 0 h2]
    rw [getCol_getD _ j (by rw [length_forceZUnimodality]; exact hit)]
    exact ent_forceZUnimodality t hit hj

-- ---------------------------------------------------------------------------
-- Rows of the magnitude pass
-- ---------------------------------------------------------------------------

theorem length_forceMagMonotonicity (t : List (List ℚ)) :
    (forceMagMonotonicity t).length = t.length := by
  simp [forceMagMonotonicity]

theorem row_forceMagMonotonicity (t : List (List ℚ)) {i : ℕ} (hi : i < t.length) :
    (forceMagMonotonicity t).getD i [] = forceMagRow (t.getD i []) := by
  unfold forceMagMonotonicity
  have hlen : i < (t.map forceMagRow).length := by simpa using hi
  rw [List.getD_eq_getElem _ [] hlen, List.getElem_map, List.getD_eq_getElem t [] hi]

theorem ncols_forceMagMonotonicity (t : List (List ℚ)) (ht : t ≠ []) :
    ncols (forceMagMonotonicity t) = ncols t := by
  have h0 : 0 < t.length := List.length_pos.mpr ht
  unfold ncols
  rw [row_forceMagMonotonicity t h0]
  exact length_forceMagRow _

-- ---------------------------------------------------------------------------
-- Claim C2
-- ---------------------------------------------------------------------------

/-- Claim C2 (code bug shown at a failing input): scanning the single-row
table `[[1/2, 0, 3/10]]`, the first near-zero value sits at column 1, after
the brighter column 0 has already been replaced by its suffix maximum `1/2`.
The claim (and the comment in the code, "set everything at fainter mags to
zero") expects the row `[1/2, 0, 0]`; the code executes `table.iloc[i, :] = 0`
and produces the all-zero row, wiping the brighter column too. -/
theorem claim_C2_code_bug_eval :
    forceMagMonotonicity cexZeroRow = [[0, 0, 0]] ∧
    ent (forceMagMonotonicity cexZeroRow) 0 0 ≠ ent cexZeroRow 0 0 := by
  have h : forceMagMonotonicity cexZeroRow = [[0, 0, 0]] := by
    norm_num [forceMagMonotonicity, cexZeroRow, forceMagRow, magScan,
      iscloseQ, absQ, atolQ, rtolQ, List.replicate]
  refine ⟨h, ?_⟩
  rw [h]
  norm_num [ent, cexZeroRow]

-- ---------------------------------------------------------------------------
-- Claim C3
-- ---------------------------------------------------------------------------

/-- Claim C3 (corrected), counterexample to the claim as frozen: in the array
`[499999/100000, 5]` position 0 does NOT attain the global maximum of the
forward running maximum (499999/100000 is not 5), so the claim predicts the
result at position 0 to be the forward running maximum 499999/100000; but
499999/100000 is within `np.isclose` tolerance of 5, so the code replaces it
by the backward running maximum 5. -/
theorem claim_C3_counterexample :
    maxOf (cexList2.take (0 + 1)) ≠ maxOf cexList2 ∧
    (forceUnimodality cexList2).getD 0 0 ≠ maxOf (cexList2.take (0 + 1)) := by
  constructor
  · norm_num [cexList2, maxOf, max_def]
  · norm_num [cexList2, forceUnimodality, frontMono, frontAux, backMono,
      maxOf, iscloseQ, absQ, atolQ, rtolQ, max_def]

/-- Claim C3 (amended): for every nonempty 1-D input array, the result of the
unimodality primitive equals the forward running maximum (prefix max) at every
position, except at the positions where the forward running maximum is within
`np.isclose` tolerance of its global maximum, where the result is instead the
backward running maximum (suffix max) at that position.  (The frozen claim
reads "at the position(s) attaining the global maximum"; the tolerant test is
what the code applies.) -/
theorem claim_C3_amended (a : List ℚ) (ha : a ≠ []) (i : ℕ) (hi : i < a.length) :
    (forceUnimodality a).getD i 0 =
      if iscloseQ (maxOf (a.take (i + 1))) (maxOf a)
      then maxOf (a.drop i) else maxOf (a.take (i + 1)) :=
  forceUnimodality_getD a ha i hi

/-- Claim C3 witness: the amended claim evaluated on the array `[1, 3, 2]` at
position 0 (where the forward running maximum is not close to the global
maximum, so the result is the forward running maximum). -/
theorem claim_C3_witness :
    (forceUnimodality [(1 : ℚ), 3, 2]).getD 0 0 =
      if iscloseQ (maxOf ([(1 : ℚ), 3, 2].take (0 + 1))) (maxOf [(1 : ℚ), 3, 2])
      then maxOf ([(1 : ℚ), 3, 2].drop 0) else maxOf ([(1 : ℚ), 3, 2].take (0 + 1)) :=
  claim_C3_amended [(1 : ℚ), 3, 2] (by simp) 0 (by simp)

-- ---------------------------------------------------------------------------
-- Claim C4
-- ---------------------------------------------------------------------------

/-- Claim C4 (corrected), counterexample to the minimality part of the claim
as frozen: the input `[499999/100000, 5]` is itself unimodal, dominates itself
pointwise and trivially has its own maximum, yet it does not dominate the
primitive's output at position 0 (the output is 5 there, strictly above
499999/100000, because of the `np.isclose` tolerance in the mask).  Hence the
output is not the smallest unimodal envelope of the input. -/
theorem claim_C4_counterexample :
    Unimodal cexList2 ∧
    cexList2.getD 0 0 < (forceUnimodality cexList2).getD 0 0 := by
  constructor
  · refine ⟨1, by norm_num [cexList2], ?_, ?_⟩
    · intro k hk
      interval_cases k
      norm_num [cexList2]
    · intro k hk h1 h2
      exfalso
      simp [cexList2] at hk h2
      omega
  · norm_num [cexList2, forceUnimodality, frontMono, frontAux, backMono,
      maxOf, iscloseQ, absQ, atolQ, rtolQ, max_def]

/-- Claim C4 (amended): for every nonempty 1-D input array, the output of the
unimodality primitive is pointwise greater than or equal to the input, is
unimodal (non-decreasing up to a peak, non-increasing after it), and its
maximum equals the input's maximum; and WHEN the `np.isclose` near-maximum
test is exact on this input (every prefix maximum within tolerance of the
global maximum equals it), the output is also minimal: any unimodal array
dominating the input pointwise dominates the output pointwise.  (The frozen
claim asserts minimality unconditionally; the tolerance refutes that, see the
counterexample.) -/
theorem claim_C4_amended (a : List ℚ) (ha : a ≠ []) :
    (∀ i, i < a.length → a.getD i 0 ≤ (forceUnimodality a).getD i 0) ∧
    Unimodal (forceUnimodality a) ∧
    maxOf (forceUnimodality a) = maxOf a ∧
    ((∀ i, i < a.length →
        iscloseQ (maxOf (a.take (i + 1))) (maxOf a) = true →
        maxOf (a.take (i + 1)) = maxOf a) →
      ∀ b, b.length = a.length → Unimodal b →
        (∀ i, i < a.length → a.getD i 0 ≤ b.getD i 0) →
        ∀ i, i < a.length → (forceUnimodality a).getD i 0 ≤ b.getD i 0) :=
  ⟨forceUnimodality_ge a ha, forceUnimodality_unimodal a ha,
   forceUnimodality_maxOf a ha,
   fun hex b hblen hb hdom => forceUnimodality_min a ha hex b hblen hb hdom⟩

/-- Claim C4 witness: the amended claim applied to the array `[1, 3, 2]`, with
the minimality part instantiated at the unimodal dominating array `[1, 3, 2]`
itself and position 1. -/
theorem claim_C4_witness :
    ([(1 : ℚ), 3, 2].getD 1 0 ≤ (forceUnimodality [(1 : ℚ), 3, 2]).getD 1 0) ∧
    Unimodal (forceUnimodality [(1 : ℚ), 3, 2]) ∧
    maxOf (forceUnimodality [(1 : ℚ), 3, 2]) = maxOf [(1 : ℚ), 3, 2] ∧
    (forceUnimodality [(1 : ℚ), 3, 2]).getD 1 0 ≤ [(1 : ℚ), 3, 2].getD 1 0 := by
  have h := claim_C4_amended [(1 : ℚ), 3, 2] (by simp)
  refine ⟨h.1 1 (by simp), h.2.1, h.2.2.1, ?_⟩
  refine h.2.2.2 ?_ [(1 : ℚ), 3, 2] rfl ?_ ?_ 1 (by simp)
  · intro i hi hic
    have hi3 : i < 3 := by simpa using hi
    interval_cases i
    · revert hic
      norm_num [maxOf, iscloseQ, absQ, atolQ, rtolQ, max_def]
    · norm_num [maxOf, max_def]
    · norm_num [maxOf, max_def]
  · refine ⟨1, by norm_num, ?_, ?_⟩
    · intro k hk
      interval_cases k
      norm_num
    · intro k hk h1 hk1
      have hk3 : k + 1 < 3 := by simpa using hk1
      have hk2 : k < 2 := by omega
      interval_cases k
      norm_num
  · intro i hi
    exact le_refl _

-- ---------------------------------------------------------------------------
-- Claim C1
-- ---------------------------------------------------------------------------

theorem getD_mem_rows {t : List (List ℚ)} {i : ℕ} (hi : i < t.length) :
    t.getD i [] ∈ t := by
  rw [List.getD_eq_getElem t [] hi]
  exact List.getElem_mem hi

/-- Claim C1 (corrected), counterexample to the claim as frozen: running both
construction-time enforcement passes on the raw table
`[[499999/10000000, 499999/10000000], [1, 1/20]]` (a fixed point of the
magnitude pass) yields a table whose FIRST redshift row INCREASES from the
brightest magnitude column to the next: the redshift-unimodality pass raises
entry (0, 1) to `1/20` because `499999/10000000` is within `np.isclose`
tolerance of the column maximum `1/20`, while entry (0, 0) stays at
`499999/10000000`.  The stored table therefore violates magnitude
monotonicity. -/
theorem claim_C1_counterexample :
    ent (forceZUnimodality (forceMagMonotonicity cexRaw)) 0 0 <
      ent (forceZUnimodality (forceMagMonotonicity cexRaw)) 0 1 := by
  norm_num [cexRaw, forceZUnimodality, forceMagMonotonicity, forceMagRow,
    magScan, ncols, getCol, forceUnimodality, frontMono, frontAux, backMono,
    maxOf, iscloseQ, absQ, atolQ, rtolQ, max_def, ent, List.range_succ]

/-- Claim C1 (amended): after magnitude-monotonicity enforcement followed by
redshift-unimodality enforcement, every magnitude column of the stored table
is unimodal along redshift, and every redshift row is non-increasing from
brightest to faintest magnitude offset UP TO the `np.isclose` tolerance: an
entry can exceed its brighter neighbour by at most
`atol + rtol * |column maximum|`.  (The frozen claim asserts exact row
monotonicity; the tolerance in the unimodality mask refutes that, see the
counterexample.) -/
theorem claim_C1_amended (raw : List (List ℚ)) (hr : raw ≠ [])
    (hrect : ∀ r ∈ raw, r.length = ncols raw) :
    (∀ j, j < ncols raw →
      Unimodal (getCol (forceZUnimodality (forceMagMonotonicity raw)) j)) ∧
    (∀ i j, i < raw.length → j + 1 < ncols raw →
      ent (forceZUnimodality (forceMagMonotonicity raw)) i (j + 1) ≤
        ent (forceZUnimodality (forceMagMonotonicity raw)) i j
          + (atolQ + rtolQ * absQ (maxOf
              (getCol (forceMagMonotonicity raw) (j + 1))))) := by
  have hlen1 : (forceMagMonotonicity raw).length = raw.length :=
    length_forceMagMonotonicity raw
  have hnc : ncols (forceMagMonotonicity raw) = ncols raw :=
    ncols_forceMagMonotonicity raw hr
  have hrawlen : 0 < raw.length := List.length_pos.mpr hr
  have hcolne : ∀ j, getCol (forceMagMonotonicity raw) j ≠ [] := by
    intro j
    apply List.ne_nil_of_length_pos
    rw [length_getCol]
    omega
  constructor
  · intro j hj
    rw [getCol_forceZUnimodality (forceMagMonotonicity raw) (by omega)]
    exact forceUnimodality_unimodal _ (hcolne j)
  · intro i j hi hj
    rw [ent_forceZUnimodality (forceMagMonotonicity raw) (by omega) (by omega),
      ent_forceZUnimodality (forceMagMonotonicity raw) (by omega) (by omega)]
    have hrow : ∀ k, k < raw.length →
        (getCol (forceMagMonotonicity raw) (j + 1)).getD k 0 ≤
          (getCol (forceMagMonotonicity raw) j).getD k 0 := by
      intro k hk
      rw [getCol_getD _ (j + 1) (by omega), getCol_getD _ j (by omega)]
      unfold ent
      rw [row_forceMagMonotonicity raw (by omega)]
      apply forceMagRow_nonincr
      rw [hrect (raw.getD k []) (getD_mem_rows (by omega))]
      omega
    exact forceUnimodality_slack (getCol (forceMagMonotonicity raw) j)
      (getCol (forceMagMonotonicity raw) (j + 1)) (hcolne j)
      (by rw [length_getCol, length_getCol])
      (fun k hk => hrow k (by rw [length_getCol] at hk; omega))
      i (by rw [length_getCol]; omega)

/-- Claim C1 witness: the amended claim applied to the constant table
`[[1, 1], [1, 1]]`, giving unimodality of column 0 and the slack bound for row
0 between columns 0 and 1. -/
theorem claim_C1_witness :
    Unimodal (getCol (forceZUnimodality (forceMagMonotonicity rawOnes)) 0) ∧
    ent (forceZUnimodality (forceMagMonotonicity rawOnes)) 0 1 ≤
      ent (forceZUnimodality (forceMagMonotonicity rawOnes)) 0 0
        + (atolQ + rtolQ * absQ (maxOf (getCol (forceMagMonotonicity rawOnes) 1))) := by
  have h := claim_C1_amended rawOnes (by simp [rawOnes])
    (by
      intro r hrm
      simp only [rawOnes, List.mem_cons, List.not_mem_nil, or_false] at hrm
      rcases hrm with rfl | rfl <;> norm_num [ncols, rawOnes])
  exact ⟨h.1 0 (by norm_num [ncols, rawOnes]),
    h.2 0 0 (by norm_num [rawOnes]) (by norm_num [ncols, rawOnes])⟩

-- ---------------------------------------------------------------------------
-- Claim C6
-- ---------------------------------------------------------------------------

theorem zipWith_replicate_congr (f g : ℚ → ℚ → ℚ) (n : ℕ) (x y : ℚ)
    (l : List ℚ) (h : ∀ z, f x z = g y z) :
    List.zipWith f (List.replicate n x) l = List.zipWith g (List.replicate n y) l := by
  induction n generalizing l with
  | zero => simp
  | succ n ih =>
    cases l with
    | nil => simp
    | cons z l2 => simp [List.replicate_succ, h z, ih l2]

/-- Claim C6 (confirmed): for any estimator state and any two magnitudes whose
offsets from the detection depth are at most the brightest tabulated offset,
the bright-end clip maps both to the same offset, so the scalar query and the
magnitude-against-redshift-array query return identical results. -/
theorem claim_C6_bright_clamp (s : Completeness) (m1 m2 : ℚ)
    (h1 : m1 - s.m5_det ≤ minOf s.cols) (h2 : m2 - s.m5_det ≤ minOf s.cols) :
    (∀ z : ℚ, callScalar s m1 z = callScalar s m2 z) ∧
    (∀ zs : List ℚ, callArr s [m1] zs = callArr s [m2] zs) := by
  constructor
  · intro z
    simp only [callScalar]
    rw [max_eq_right h1, max_eq_right h2]
  · intro zs
    simp only [callArr, List.length_singleton, List.getD_cons_zero,
      eq_self_iff_true, true_or, or_true, if_true]
    have hz : ∀ l : List ℚ, List.zipWith
        (fun mi zi => max (interp2d s.zs s.cols s.table zi
          (max (mi - s.m5_det) (minOf s.cols))) 0)
        (List.replicate (max 1 zs.length) m1) l =
      List.zipWith
        (fun mi zi => max (interp2d s.zs s.cols s.table zi
          (max (mi - s.m5_det) (minOf s.cols))) 0)
        (List.replicate (max 1 zs.length) m2) l := by
      intro l
      apply zipWith_replicate_congr
      intro z
      rw [max_eq_right h1, max_eq_right h2]
    rw [hz]

/-- Claim C6 witness: querying the concrete estimator at magnitudes -100 and
-90 (both far brighter than the grid) gives identical results, as a scalar
query at redshift 0 and as an array query at redshifts `[0, 1/2]`. -/
theorem claim_C6_witness :
    callScalar cexState (-100) 0 = callScalar cexState (-90) 0 ∧
    callArr cexState [-100] [0, 1/2] = callArr cexState [-90] [0, 1/2] := by
  have h := claim_C6_bright_clamp cexState (-100) (-90)
    (by norm_num [cexState, mkCompleteness, Completeness.m5_det, minOf, min_def])
    (by norm_num [cexState, mkCompleteness, Completeness.m5_det, minOf, min_def])
  exact ⟨h.1 0, h.2 [0, 1/2]⟩

-- ---------------------------------------------------------------------------
-- Claim C7
-- ---------------------------------------------------------------------------

/-- Claim C7 (confirmed): when `completeness_<band>.dat` is in none of the
registered data directories, construction fails with the error whose message
instructs the caller to register a data directory before use (the role the
spec calls `TableNotFoundError`; the code raises it as a Python `ValueError`),
and no table is returned in its place. -/
theorem claim_C7_table_not_found (dirs : List (List String)) (band : String)
    (h : ∀ d ∈ dirs, completenessFileName band ∉ d) :
    initLoad dirs band = .error (.valueError (tableNotFoundMessage band)) ∧
    ∀ d, initLoad dirs band ≠ .ok d := by
  have hfind : findTableDir dirs band = none := by
    rw [findTableDir, List.find?_eq_none]
    intro d hd hc
    exact h d hd (by simpa [List.contains] using hc)
  constructor
  · simp only [initLoad, hfind]
  · intro d
    simp only [initLoad, hfind]
    intro hcontra
    cases hcontra

/-- Claim C7 witness: a single registered directory holding only `other.dat`
makes construction for band `u` fail with the table-not-found error. -/
theorem claim_C7_witness :
    initLoad [["other.dat"]] "u" =
      Except.error (.valueError (tableNotFoundMessage "u")) :=
  (claim_C7_table_not_found [["other.dat"]] "u" (by decide)).1

-- ---------------------------------------------------------------------------
-- Claim C8
-- ---------------------------------------------------------------------------

/-- Claim C8 (corrected), counterexample to the claim as frozen: the magnitude
array `[5]` and the redshift array `[1, 2, 3]` have mismatched shapes
(lengths 1 and 3), yet the query silently broadcasts the single magnitude and
returns a length-3 result instead of failing. -/
theorem claim_C8_counterexample :
    ([(5 : ℚ)].length ≠ [(1 : ℚ), 2, 3].length) ∧
    callArr cexState [5] [1, 2, 3] = .ok [1, 3/2, 2] := by
  constructor
  · simp
  · norm_num [callArr, cexState, mkCompleteness, interp2d, searchIdx, countLt,
      minOf, min_def, max_def, ent, postEnforce, forceZUnimodality, ncols,
      getCol, forceUnimodality, frontMono, frontAux, backMono, maxOf,
      forceMagMonotonicity, forceMagRow, magScan, iscloseQ, absQ, atolQ, rtolQ,
      Completeness.m5_det, List.range_succ, List.replicate]

/-- Claim C8 (amended): query arrays of non-broadcastable shapes (different
lengths, neither of length one) fail with numpy's broadcast `ValueError`;
a length-1 magnitude or redshift array is silently broadcast against the
other instead (see the counterexample). -/
theorem claim_C8_amended (s : Completeness) (m z : List ℚ)
    (h1 : m.length ≠ z.length) (h2 : m.length ≠ 1) (h3 : z.length ≠ 1) :
    callArr s m z = .error (.valueError broadcastErrorMsg) := by
  unfold callArr
  rw [if_neg (by push_neg; exact ⟨h1, h2, h3⟩)]

/-- Claim C8 witness: magnitude array of length 2 against redshift array of
length 3 raises the broadcast error. -/
theorem claim_C8_witness :
    callArr cexState [1, 2] [1, 2, 3] =
      Except.error (.valueError broadcastErrorMsg) :=
  claim_C8_amended cexState [1, 2] [1, 2, 3] (by simp) (by simp) (by simp)

-- ---------------------------------------------------------------------------
-- Claim C9
-- ---------------------------------------------------------------------------

/-- Claim C9 (confirmed): the `band` and `m5_det` properties are declared with
no setter, so every assignment attempt fails with `AttributeError`, and the
property getters return exactly the band name and detection depth supplied at
construction. -/
theorem claim_C9_immutable_properties :
    (∀ (c : Completeness) (v : String),
      setBand c v = .error (.attributeError (noSetterMsg "band"))) ∧
    (∀ (c : Completeness) (v : ℚ),
      setM5Det c v = .error (.attributeError (noSetterMsg "m5_det"))) ∧
    (∀ (band : String) (m5 : ℚ) (zs cols : List ℚ) (raw : List (List ℚ)),
      (mkCompleteness band m5 zs cols raw).band = band ∧
      (mkCompleteness band m5 zs cols raw).m5_det = m5) :=
  ⟨fun _ _ => rfl, fun _ _ => rfl, fun _ _ _ _ _ => ⟨rfl, rfl⟩⟩

-- ---------------------------------------------------------------------------
-- Claim C10
-- ---------------------------------------------------------------------------

/-- Claim C10 (confirmed): after construction the `table` field and the
`table0` field hold the same reference; the store maps that single reference
to the fully enforced table (both passes mutate the loaded DataFrame in place
and return it), and no reference retains the raw pre-enforcement values. -/
theorem claim_C10_alias (raw : List (List ℚ)) :
    (initObj raw).1.tableRef = (initObj raw).1.table0Ref ∧
    (initObj raw).2 ((initObj raw).1.table0Ref) =
      forceZUnimodality (forceMagMonotonicity raw) ∧
    (∀ q, (initObj raw).2 q =
      if q = 0 then forceZUnimodality (forceMagMonotonicity raw) else []) := by
  refine ⟨rfl, ?_, ?_⟩
  · simp [initObj, forceZUnimodalityRef, forceMagMonotonicityRef, storeWrite,
      emptyStore]
  · intro q
    by_cases hq : q = 0
    · subst hq
      simp [initObj, forceZUnimodalityRef, forceMagMonotonicityRef, storeWrite,
        emptyStore]
    · simp [initObj, forceZUnimodalityRef, forceMagMonotonicityRef, storeWrite,
        emptyStore, hq]

-- ---------------------------------------------------------------------------
-- Sorted grids and searchsorted
-- ---------------------------------------------------------------------------

theorem strictSorted_tail {a : ℚ} {t : List ℚ} (h : StrictSorted (a :: t)) :
    StrictSorted t :=
  List.Chain'.tail h

theorem strictSorted_getD_lt {g : List ℚ} (hs : StrictSorted g) {i : ℕ}
    (hi : i + 1 < g.length) : g.getD i 0 < g.getD (i + 1) 0 := by
  have h := List.chain'_iff_get.mp hs i (by omega)
  rw [List.getD_eq_getElem g 0 (by omega), List.getD_eq_getElem g 0 hi]
  simpa [List.get_eq_getElem] using h

theorem strictSorted_getD_mono {g : List ℚ} (hs : StrictSorted g) {i j : ℕ}
    (hij : i ≤ j) (hj : j < g.length) : g.getD i 0 ≤ g.getD j 0 := by
  induction j, hij using Nat.le_induction with
  | base => exact le_refl _
  | succ j hij ih =>
    exact le_trans (ih (by omega)) (le_of_lt (strictSorted_getD_lt hs hj))

theorem countLt_le_length (g : List ℚ) (x : ℚ) : countLt g x ≤ g.length := by
  induction g with
  | nil => simp [countLt]
  | cons a t ih =>
    rw [countLt]
    split <;> simp <;> omega

theorem countLt_pos_exists {g : List ℚ} {x : ℚ} (h : 0 < countLt g x) :
    ∃ y ∈ g, y < x := by
  induction g with
  | nil => simp [countLt] at h
  | cons a t ih =>
    rw [countLt] at h
    by_cases ha : a < x
    · exact ⟨a, by simp, ha⟩
    · rw [if_neg ha] at h
      rcases ih (by omega) with ⟨y, hy, hyx⟩
      exact ⟨y, by simp [hy], hyx⟩

theorem countLt_lt {g : List ℚ} {x : ℚ} (hs : StrictSorted g) :
    ∀ k, k < countLt g x → k < g.length ∧ g.getD k 0 < x := by
  induction g with
  | nil => intro k hk; simp [countLt] at hk
  | cons a t ih =>
    intro k hk
    by_cases ha : a < x
    · rw [countLt, if_pos ha] at hk
      cases k with
      | zero => exact ⟨by simp, by simpa using ha⟩
      | succ k =>
        have h2 := ih (strictSorted_tail hs) k (by omega)
        refine ⟨by simpa using h2.1, ?_⟩
        simpa using h2.2
    · exfalso
      rw [countLt, if_neg ha] at hk
      have h0 : 0 < countLt t x := by omega
      rcases countLt_pos_exists h0 with ⟨y, hy, hyx⟩
      rcases mem_index hy with ⟨j, hj, rfl⟩
      have h1 : (a :: t).getD 0 0 ≤ (a :: t).getD (j + 1) 0 :=
        strictSorted_getD_mono hs (by omega) (by simpa using hj)
      simp only [List.getD_cons_zero, List.getD_cons_succ] at h1
      push_neg at ha
      linarith

theorem countLt_ge {g : List ℚ} {x : ℚ} (hs : StrictSorted g) :
    ∀ k, countLt g x ≤ k → k < g.length → x ≤ g.getD k 0 := by
  induction g with
  | nil => intro k _ hk; simp at hk
  | cons a t ih =>
    intro k hc hk
    by_cases ha : a < x
    · rw [countLt, if_pos ha] at hc
      cases k with
      | zero => omega
      | succ k =>
        have := ih (strictSorted_tail hs) k (by omega) (by simpa using hk)
        simpa using this
    · push_neg at ha
      have h1 : (a :: t).getD 0 0 ≤ (a :: t).getD k 0 :=
        strictSorted_getD_mono hs (Nat.zero_le k) hk
      simp only [List.getD_cons_zero] at h1
      exact le_trans ha h1

theorem searchIdx_bounds {g : List ℚ} {x : ℚ} (h2 : 2 ≤ g.length)
    (hs : StrictSorted g) (hlo : g.getD 0 0 ≤ x)
    (hhi : x ≤ g.getD (g.length - 1) 0) :
    searchIdx g x + 1 < g.length ∧
    g.getD (searchIdx g x) 0 ≤ x ∧ x ≤ g.getD (searchIdx g x + 1) 0 := by
  have hcle : countLt g x ≤ g.length := countLt_le_length g x
  have hcn : countLt g x < g.length := by
    rcases lt_or_eq_of_le hcle with h | h
    · exact h
    · exfalso
      have h3 := (@countLt_lt g x hs (g.length - 1) (by omega)).2
      linarith
  unfold searchIdx
  refine ⟨by omega, ?_, ?_⟩
  · by_cases hc0 : countLt g x = 0
    · have hi : min (countLt g x - 1) (g.length - 2) = 0 := by
        simp [hc0]
      rw [hi]
      exact hlo
    · have hi : min (countLt g x - 1) (g.length - 2) < countLt g x := by omega
      exact le_of_lt (countLt_lt hs _ hi).2
  · by_cases hc0 : countLt g x = 0
    · have hi : min (countLt g x - 1) (g.length - 2) = 0 := by
        simp [hc0]
      rw [hi]
      exact countLt_ge hs 1 (by omega) (by omega)
    · have hi : min (countLt g x - 1) (g.length - 2) = countLt g x - 1 := by omega
      rw [hi, show countLt g x - 1 + 1 = countLt g x by omega]
      exact countLt_ge hs (countLt g x) (le_refl _) hcn

-- ---------------------------------------------------------------------------
-- Interpolation bounds on in-grid queries
-- ---------------------------------------------------------------------------

theorem div_mem_unit {a b x : ℚ} (hab : a < b) (hax : a ≤ x) (hxb : x ≤ b) :
    0 ≤ (x - a) / (b - a) ∧ (x - a) / (b - a) ≤ 1 := by
  have hba : (0 : ℚ) < b - a := by linarith
  constructor
  · apply div_nonneg <;> linarith
  · rw [div_le_one hba]; linarith

theorem bilinear_bounds {tz tm v00 v01 v10 v11 : ℚ}
    (htz0 : 0 ≤ tz) (htz1 : tz ≤ 1) (htm0 : 0 ≤ tm) (htm1 : tm ≤ 1)
    (h00 : 0 ≤ v00 ∧ v00 ≤ 1) (h01 : 0 ≤ v01 ∧ v01 ≤ 1)
    (h10 : 0 ≤ v10 ∧ v10 ≤ 1) (h11 : 0 ≤ v11 ∧ v11 ≤ 1) :
    0 ≤ (1 - tz) * (1 - tm) * v00 + (1 - tz) * tm * v01
        + tz * (1 - tm) * v10 + tz * tm * v11 ∧
    (1 - tz) * (1 - tm) * v00 + (1 - tz) * tm * v01
        + tz * (1 - tm) * v10 + tz * tm * v11 ≤ 1 := by
  obtain ⟨h00a, h00b⟩ := h00
  obtain ⟨h01a, h01b⟩ := h01
  obtain ⟨h10a, h10b⟩ := h10
  obtain ⟨h11a, h11b⟩ := h11
  have hz1 : (0 : ℚ) ≤ 1 - tz := by linarith
  have hm1 : (0 : ℚ) ≤ 1 - tm := by linarith
  have w00 : (0 : ℚ) ≤ (1 - tz) * (1 - tm) := mul_nonneg hz1 hm1
  have w01 : (0 : ℚ) ≤ (1 - tz) * tm := mul_nonneg hz1 htm0
  have w10 : (0 : ℚ) ≤ tz * (1 - tm) := mul_nonneg htz0 hm1
  have w11 : (0 : ℚ) ≤ tz * tm := mul_nonneg htz0 htm0
  constructor
  · have t1 := mul_nonneg w00 h00a
    have t2 := mul_nonneg w01 h01a
    have t3 := mul_nonneg w10 h10a
    have t4 := mul_nonneg w11 h11a
    linarith
  · have t1 : (1 - tz) * (1 - tm) * v00 ≤ (1 - tz) * (1 - tm) :=
      mul_le_of_le_one_right w00 h00b
    have t2 : (1 - tz) * tm * v01 ≤ (1 - tz) * tm :=
      mul_le_of_le_one_right w01 h01b
    have t3 : tz * (1 - tm) * v10 ≤ tz * (1 - tm) :=
      mul_le_of_le_one_right w10 h10b
    have t4 : tz * tm * v11 ≤ tz * tm :=
      mul_le_of_le_one_right w11 h11b
    have hsum : (1 - tz) * (1 - tm) + (1 - tz) * tm + tz * (1 - tm) + tz * tm = 1 := by
      ring
    linarith

theorem interp2d_bounds (zs cols : List ℚ) (V : List (List ℚ)) (z dm : ℚ)
    (hz2 : 2 ≤ zs.length) (hc2 : 2 ≤ cols.length)
    (hzs : StrictSorted zs) (hcs : StrictSorted cols)
    (hVlen : V.length = zs.length) (hVrect : ∀ r ∈ V, r.length = cols.length)
    (hVvals : ∀ r ∈ V, ∀ v ∈ r, 0 ≤ v ∧ v ≤ 1)
    (hzlo : zs.getD 0 0 ≤ z) (hzhi : z ≤ zs.getD (zs.length - 1) 0)
    (hdlo : cols.getD 0 0 ≤ dm) (hdhi : dm ≤ cols.getD (cols.length - 1) 0) :
    0 ≤ interp2d zs cols V z dm ∧ interp2d zs cols V z dm ≤ 1 := by
  obtain ⟨hzi, hzl, hzr⟩ := searchIdx_bounds hz2 hzs hzlo hzhi
  obtain ⟨hji, hjl, hjr⟩ := searchIdx_bounds hc2 hcs hdlo hdhi
  have htz := div_mem_unit (strictSorted_getD_lt hzs hzi) hzl hzr
  have htm := div_mem_unit (strictSorted_getD_lt hcs hji) hjl hjr
  have hent : ∀ i j, i < zs.length → j < cols.length →
      0 ≤ ent V i j ∧ ent V i j ≤ 1 := by
    intro i j hi hj
    have hiV : i < V.length := by omega
    have hrow : V.getD i [] ∈ V := getD_mem_rows hiV
    have hjr2 : j < (V.getD i []).length := by rw [hVrect _ hrow]; omega
    exact hVvals _ hrow _ (getD_mem hjr2)
  unfold interp2d
  exact bilinear_bounds htz.1 htz.2 htm.1 htm.2
    (hent _ _ (by omega) (by omega)) (hent _ _ (by omega) (by omega))
    (hent _ _ (by omega) (by omega)) (hent _ _ (by omega) (by omega))

theorem minOf_sorted {g : List ℚ} (hs : StrictSorted g) (hg : g ≠ []) :
    minOf g = g.getD 0 0 := by
  cases g with
  | nil => cases hg rfl
  | cons a t =>
    cases t with
    | nil => simp [minOf]
    | cons b t2 =>
      have h1 : minOf (b :: t2) = (b :: t2).getD 0 0 :=
        minOf_sorted (strictSorted_tail hs) (by simp)
      have h2 : (a :: b :: t2).getD 0 0 < (a :: b :: t2).getD 1 0 :=
        strictSorted_getD_lt hs (by simp)
      simp only [List.getD_cons_zero, List.getD_cons_succ] at h1 h2
      rw [minOf, if_neg (by simp), h1]
      simp only [List.getD_cons_zero]
      exact min_eq_left (le_of_lt h2)

-- ---------------------------------------------------------------------------
-- Value bounds are preserved by the enforcement passes
-- ---------------------------------------------------------------------------

theorem forceMag_table_bounds {raw : List (List ℚ)}
    (hvals : ∀ r ∈ raw, ∀ v ∈ r, 0 ≤ v ∧ v ≤ 1) :
    ∀ r ∈ forceMagMonotonicity raw, ∀ v ∈ r, 0 ≤ v ∧ v ≤ 1 := by
  intro r hr v hv
  rcases List.mem_map.mp hr with ⟨r0, hr0, rfl⟩
  rcases forceMagRow_mem r0 v hv with h | rfl
  · exact hvals r0 hr0 v h
  · norm_num

theorem forceZ_table_bounds {t : List (List ℚ)}
    (hvals : ∀ r ∈ t, ∀ v ∈ r, 0 ≤ v ∧ v ≤ 1) :
    ∀ r ∈ forceZUnimodality t, ∀ v ∈ r, 0 ≤ v ∧ v ≤ 1 := by
  intro r hr v hv
  rcases List.mem_map.mp hr with ⟨i, hi, rfl⟩
  rcases List.mem_map.mp hv with ⟨j, hj, rfl⟩
  have hin : i < t.length := List.mem_range.mp hi
  have hlen : i < (forceUnimodality (getCol t j)).length := by
    rw [length_forceUnimodality, length_getCol]
    exact hin
  have hmem : (forceUnimodality (getCol t j)).getD i 0 ∈
      forceUnimodality (getCol t j) := getD_mem hlen
  have hmem2 := forceUnimodality_mem (getCol t j) _ hmem
  rcases List.mem_map.mp hmem2 with ⟨r2, hr2, he⟩
  rw [← he]
  by_cases hj2 : j < r2.length
  · exact hvals r2 hr2 _ (getD_mem hj2)
  · rw [List.getD_eq_default _ _ (by omega)]
    norm_num

theorem forceZ_row_length (t : List (List ℚ)) :
    ∀ r ∈ forceZUnimodality t, r.length = ncols t := by
  intro r hr
  rcases List.mem_map.mp hr with ⟨i, _, rfl⟩
  simp

-- ---------------------------------------------------------------------------
-- The post-interpolation enforcement on small batches
-- ---------------------------------------------------------------------------

theorem forceUnimodality_single (x : ℚ) : forceUnimodality [x] = [x] := by
  simp [forceUnimodality, frontMono, frontAux, backMono, maxOf, ite_self]

theorem postEnforce_row (cs : List ℚ) :
    (postEnforce [cs]).getD 0 [] = forceUnimodality cs := by
  have h1 : postEnforce [cs] = forceZUnimodality [forceUnimodality cs] := by
    simp [postEnforce]
  rw [h1]
  generalize forceUnimodality cs = l
  unfold forceZUnimodality
  rw [getD_map_range [] _ _ (by simp)]
  have hn : ncols [l] = l.length := by simp [ncols]
  rw [hn]
  apply List.ext_getElem
  · simp
  · intro k h1 h2
    rw [← List.getD_eq_getElem _ 0 h1, ← List.getD_eq_getElem _ 0 h2]
    have hk : k < l.length := by simpa using h2
    rw [getD_map_range 0 l.length _ hk]
    have hcol : getCol [l] k = [l.getD k 0] := by simp [getCol]
    rw [hcol, forceUnimodality_single]
    simp

theorem callScalar_eq (s : Completeness) (m z : ℚ) :
    callScalar s m z =
      max (interp2d s.zs s.cols s.table z (max (m - s.m5_det) (minOf s.cols))) 0 := by
  simp only [callScalar]
  unfold ent
  rw [postEnforce_row]
  rw [forceUnimodality_single]
  simp

theorem mem_zipWith {f : ℚ → ℚ → ℚ} {as bs : List ℚ} {v : ℚ}
    (hv : v ∈ List.zipWith f as bs) : ∃ a ∈ as, ∃ b ∈ bs, v = f a b := by
  induction as generalizing bs with
  | nil => simp at hv
  | cons a at2 ih =>
    cases bs with
    | nil => simp at hv
    | cons b bt =>
      rw [List.zipWith_cons_cons] at hv
      rcases List.mem_cons.mp hv with rfl | hv2
      · exact ⟨a, by simp, b, by simp, rfl⟩
      · rcases ih hv2 with ⟨a2, ha2, b2, hb2, he⟩
        exact ⟨a2, by simp [ha2], b2, by simp [hb2], he⟩

-- ---------------------------------------------------------------------------
-- Claim C5
-- ---------------------------------------------------------------------------

/-- Claim C5 (corrected), counterexample to the claim as frozen: the estimator
built from the well-formed [0,1]-valued table `[[1/2, 1/2], [1, 1]]` on the
redshift grid `[0, 1]` (columns increasing towards the redshift edge) returns
`3/2 > 1` for the scalar query `(m, z) = (0, 2)`: linear extrapolation beyond
the redshift grid follows the rising edge gradient, the code clips only from
below at 0, and the 1x1 batch makes the unimodality re-enforcement a no-op. -/
theorem claim_C5_counterexample : 1 < callScalar cexState 0 2 := by
  norm_num [callScalar, cexState, mkCompleteness, interp2d, searchIdx, countLt,
    minOf, min_def, max_def, ent, postEnforce, forceZUnimodality, ncols, getCol,
    forceUnimodality, frontMono, frontAux, backMono, maxOf,
    forceMagMonotonicity, forceMagRow, magScan, iscloseQ, absQ, atolQ, rtolQ,
    Completeness.m5_det, List.range_succ, List.replicate]

/-- Claim C5 (amended): every completeness value returned by the query path is
at least 0 (scalar and array queries alike); and values are at most 1 for
queries whose redshift lies within the table's redshift grid and whose
magnitude offset is at most the faintest tabulated offset, provided the grids
are strictly ascending with at least two points and the raw table values lie
in [0, 1].  (The frozen claim asserts [0, 1] for ALL queries; redshift- or
faintward-extrapolating queries can exceed 1, see the counterexample.) -/
theorem claim_C5_amended (band : String) (m5 : ℚ) (zs cols : List ℚ)
    (raw : List (List ℚ))
    (hz2 : 2 ≤ zs.length) (hc2 : 2 ≤ cols.length)
    (hzs : StrictSorted zs) (hcs : StrictSorted cols)
    (hrows : raw.length = zs.length)
    (hrect : ∀ r ∈ raw, r.length = cols.length)
    (hvals : ∀ r ∈ raw, ∀ v ∈ r, 0 ≤ v ∧ v ≤ 1) :
    (∀ m z : ℚ, 0 ≤ callScalar (mkCompleteness band m5 zs cols raw) m z) ∧
    (∀ ms zq res : List ℚ,
      callArr (mkCompleteness band m5 zs cols raw) ms zq = .ok res →
      ∀ v ∈ res, 0 ≤ v) ∧
    (∀ m z : ℚ, zs.getD 0 0 ≤ z → z ≤ zs.getD (zs.length - 1) 0 →
      m - m5 ≤ cols.getD (cols.length - 1) 0 →
      callScalar (mkCompleteness band m5 zs cols raw) m z ≤ 1) ∧
    (∀ ms zq res : List ℚ,
      (∀ mi ∈ ms, mi - m5 ≤ cols.getD (cols.length - 1) 0) →
      (∀ zi ∈ zq, zs.getD 0 0 ≤ zi ∧ zi ≤ zs.getD (zs.length - 1) 0) →
      callArr (mkCompleteness band m5 zs cols raw) ms zq = .ok res →
      ∀ v ∈ res, v ≤ 1) := by
  have hraw_ne : raw ≠ [] := by
    apply List.ne_nil_of_length_pos
    omega
  have hcols_ne : cols ≠ [] := by
    apply List.ne_nil_of_length_pos
    omega
  have hVlen : (forceZUnimodality (forceMagMonotonicity raw)).length = zs.length := by
    rw [length_forceZUnimodality, length_forceMagMonotonicity, hrows]
  have hVrect : ∀ r ∈ forceZUnimodality (forceMagMonotonicity raw),
      r.length = cols.length := by
    intro r hr
    rw [forceZ_row_length _ r hr, ncols_forceMagMonotonicity raw hraw_ne]
    unfold ncols
    exact hrect _ (getD_mem_rows (List.length_pos.mpr hraw_ne))
  have hVvals := forceZ_table_bounds (forceMag_table_bounds hvals)
  have hmin : minOf cols = cols.getD 0 0 := minOf_sorted hcs hcols_ne
  -- bounds on the clipped magnitude offset
  have hdm : ∀ mq : ℚ, mq - m5 ≤ cols.getD (cols.length - 1) 0 →
      cols.getD 0 0 ≤ max (mq - m5) (minOf cols) ∧
      max (mq - m5) (minOf cols) ≤ cols.getD (cols.length - 1) 0 := by
    intro mq hmq
    constructor
    · rw [hmin]
      exact le_max_right _ _
    · apply max_le hmq
      rw [hmin]
      exact strictSorted_getD_mono hcs (Nat.zero_le _) (by omega)
  refine ⟨?_, ?_, ?_, ?_⟩
  · intro m z
    rw [callScalar_eq]
    exact le_max_right _ _
  · intro ms zq res hok v hv
    simp only [callArr] at hok
    split at hok
    · simp only [Except.ok.injEq] at hok
      rw [← hok, postEnforce_row] at hv
      have hv2 := forceUnimodality_mem _ _ hv
      rcases mem_zipWith hv2 with ⟨a, _, b, _, rfl⟩
      exact le_max_right _ _
    · cases hok
  · intro m z hzlo hzhi hm
    rw [callScalar_eq]
    apply max_le ?_ (by norm_num)
    exact (interp2d_bounds zs cols (forceZUnimodality (forceMagMonotonicity raw))
      z _ hz2 hc2 hzs hcs hVlen hVrect hVvals hzlo hzhi
      (hdm m hm).1 (hdm m hm).2).2
  · intro ms zq res hms hzq hok v hv
    simp only [callArr] at hok
    split at hok
    · simp only [Except.ok.injEq] at hok
      rw [← hok, postEnforce_row] at hv
      have hv2 := forceUnimodality_mem _ _ hv
      rcases mem_zipWith hv2 with ⟨a, ha, b, hb, rfl⟩
      have ham : a ∈ ms := by
        revert ha
        split
        · intro ha
          have := List.eq_of_mem_replicate ha
          rw [this]
          apply getD_mem
          omega
        · intro ha
          exact ha
      have hbz : b ∈ zq := by
        revert hb
        split
        · intro hb
          have := List.eq_of_mem_replicate hb
          rw [this]
          apply getD_mem
          omega
        · intro hb
          exact hb
      apply max_le ?_ (by norm_num)
      exact (interp2d_bounds zs cols (forceZUnimodality (forceMagMonotonicity raw))
        b _ hz2 hc2 hzs hcs hVlen hVrect hVvals (hzq b hbz).1 (hzq b hbz).2
        (hdm a (hms a ham)).1 (hdm a (hms a ham)).2).2
    · cases hok

/-- Claim C5 witness: the amended claim applied to the concrete estimator
(band `u`, depth 0, grids `[0, 1]`, table `[[1/2, 1/2], [1, 1]]`) at the
in-grid scalar query `(m, z) = (0, 1/2)`. -/
theorem claim_C5_witness :
    0 ≤ callScalar (mkCompleteness "u" 0 [0, 1] [0, 1] [[1/2, 1/2], [1, 1]]) 0 (1/2) ∧
    callScalar (mkCompleteness "u" 0 [0, 1] [0, 1] [[1/2, 1/2], [1, 1]]) 0 (1/2) ≤ 1 := by
  have h := claim_C5_amended "u" 0 [0, 1] [0, 1] [[1/2, 1/2], [1, 1]]
    (by simp) (by simp)
    (by norm_num [StrictSorted, List.chain'_cons])
    (by norm_num [StrictSorted, List.chain'_cons])
    (by simp)
    (by
      intro r hr
      simp only [List.mem_cons, List.not_mem_nil, or_false] at hr
      rcases hr with rfl | rfl <;> simp)
    (by
      intro r hr v hv
      simp only [List.mem_cons, List.not_mem_nil, or_false] at hr
      rcases hr with rfl | rfl <;>
        (simp only [List.mem_cons, List.not_mem_nil, or_false] at hv;
          rcases hv with rfl | rfl <;> norm_num))
  exact ⟨h.1 0 (1/2), h.2.2.1 0 (1/2) (by norm_num) (by norm_num) (by norm_num)⟩
